import Mathlib

/-!
Shallow embedding of the file-scanner program (src/main.go).

Modelling conventions:
* Strings are modelled as Lean `String` / `List Char`; match indices are
  character offsets (`Nat`).  The Go code reports byte offsets from
  `regexp.FindAllStringSubmatchIndex`; on the ASCII inputs of the claims the
  two coincide, and the spec explicitly allows either unit ("byte or
  code-point index").  Go regexp never returns negative indices, so `Nat`
  is faithful to the `int` fields of `MatchInfo`.
* `compilePatterns` (src/main.go:92-114) quotes the query with
  `regexp.QuoteMeta` and rewrites the escaped wildcards, so the compiled
  regular expression is exactly a concatenation of three kinds of atoms:
  a literal character, `.` (from `?`), and `.*` (from `*`).  The type `Tok`
  is this atom language; `compileQuery` is the per-character translation.
  The string-level pipeline (QuoteMeta plus the two ReplaceAllString calls
  and the regexp parser) is modelled separately for the compilation-totality
  claim: see `quoteMeta`, `replacePair`, `goTranslate`, `parseRx`.
* `matchFrom` is Go's leftmost-first (Perl preference) matching of such a
  regex against a suffix of the line: `.*` is greedy, so longer extents are
  tried first (`suffixesShortFirst` lists candidate remainders shortest
  first, i.e. maximal consumption first).  `.` is modelled as matching any
  character: scanned lines come from `bufio.Scanner` with `ScanLines` and
  therefore never contain a newline, the one character Go's `.` excludes.
* `findAllLoopF` is the loop of Go's `Regexp.allMatches` (regexp/regexp.go)
  specialised to one-rune-per-character strings: repeatedly take the
  leftmost match at or after `pos`; an empty match equal to the previous
  match end is discarded; after an empty match the position advances by
  one character, otherwise to the match end.  The loop runs at most
  `length + 1` iterations (the position strictly increases and the loop
  stops past the end), so fuel `length + 1` makes the fuelled version
  exact; keeping it structurally recursive lets `decide` evaluate it.
* Files and directories are modelled by `FSEntry` (one entry of the
  `filepath.Walk` traversal, in walk order): an entry that `Walk` reports
  an error for (`walkErr`), a directory flag, and, for files, `content` as
  the optional list of lines (`none` when `os.Open` fails, `some lines`
  for the lines produced by the scanner).  Result delivery through the
  buffered channel preserves the set of emitted results but not their
  order; `runScan` returns the canonical emission order and `IsRunOutcome`
  says an observed collection is some permutation of it.
-/

/-- One atom of the compiled regular expression: a literal character,
`.` (any single character, from the `?` wildcard), or `.*` (any run of
characters, from the `*` wildcard). -/
inductive Tok where
  | lit (c : Char)
  | dot
  | star
  deriving DecidableEq, Repr

/-- Per-character wildcard translation performed by `compilePatterns`
(src/main.go:99-101): `*` becomes `.*`, `?` becomes `.`, every other
character is quoted and matches literally. -/
def compileQuery (p : List Char) : List Tok :=
  p.map fun c => if c = '*' then Tok.star else if c = '?' then Tok.dot else Tok.lit c

/-- All suffixes of a list, shortest first.  Used to make `.*` greedy:
the shortest remainder corresponds to the longest consumed run. -/
def suffixesShortFirst : List Char → List (List Char)
  | [] => [[]]
  | a :: rest => suffixesShortFirst rest ++ [a :: rest]

/-- Go's leftmost-first matching of the compiled atoms against a string,
anchored at its start.  Returns the remainder of the string after the
preferred (greedy) match, or `none` when there is no match here.  This is
the preference semantics of Go's regexp engine on this atom language:
atoms are matched in sequence and `.*` prefers the longest extent. -/
def matchFrom : List Tok → List Char → Option (List Char)
  | [], s => some s
  | Tok.lit _ :: _, [] => none
  | Tok.lit c :: ts, a :: s => if a = c then matchFrom ts s else none
  | Tok.dot :: _, [] => none
  | Tok.dot :: ts, _ :: s => matchFrom ts s
  | Tok.star :: ts, s => (suffixesShortFirst s).findSome? fun s2 => matchFrom ts s2

/-- Leftmost match search: try `matchFrom` at `pos`, then at `pos + 1`, and
so on.  `s` is the suffix of the line starting at `pos`.  Returns the
half-open span `(start, end)` of the leftmost preferred match, if any. -/
def firstMatchAux (ts : List Tok) : List Char → Nat → Option (Nat × Nat)
  | s, pos =>
    match matchFrom ts s with
    | some rem => some (pos, pos + (s.length - rem.length))
    | none =>
      match s with
      | [] => none
      | _ :: t => firstMatchAux ts t (pos + 1)

/-- The loop of Go's `Regexp.allMatches`, fuelled (one unit of fuel per
iteration; `findAll` supplies enough fuel for the loop to finish).
`prev` is `prevMatchEnd`: an empty match at the previous match end is
discarded; after an empty match the scan position advances by one
character, otherwise to the end of the match. -/
def findAllLoopF : Nat → List Tok → List Char → Nat → Option Nat → List (Nat × Nat)
  | 0, _, _, _, _ => []
  | fuel + 1, ts, line, pos, prev =>
    if line.length < pos then []
    else
      match firstMatchAux ts (line.drop pos) pos with
      | none => []
      | some (i, e) =>
        if e = i then
          (if prev = some i then [] else [(i, e)]) ++
            findAllLoopF fuel ts line (pos + 1) (some e)
        else
          (i, e) :: findAllLoopF fuel ts line e (some e)

/-- All non-overlapping matches of the compiled pattern in the line, as
returned by `pattern.FindAllStringSubmatchIndex(line, -1)` restricted to
the whole-match span of each element. -/
def findAll (ts : List Tok) (line : List Char) : List (Nat × Nat) :=
  findAllLoopF (line.length + 1) ts line 0 none

/-- MatchInfo (src/main.go:52-56): the original pattern string and the
half-open character span of one match. -/
structure MatchInfo where
  pattern : String
  startIndex : Nat
  endIndex : Nat
  deriving DecidableEq, Repr

/-- findMatchPositions (src/main.go:72-87): wrap every span found by the
find-all loop in a `MatchInfo` carrying the original pattern string.  (The
Go code also checks `len(match) >= 2`, which always holds for the index
arrays returned by `FindAllStringSubmatchIndex`; here a span is already a
pair, so the check is vacuous.) -/
def findMatchPositions (line : String) (ts : List Tok) (originalPattern : String) :
    List MatchInfo :=
  (findAll ts line.data).map fun pr =>
    { pattern := originalPattern, startIndex := pr.1, endIndex := pr.2 }

/-- Query (src/main.go:40-43): a search pattern and its file extensions. -/
structure Query where
  pattern : String
  extensions : List String
  deriving DecidableEq, Repr

/-- SearchResult (src/main.go:58-64): one match occurrence. -/
structure SearchResult where
  filePath : String
  lineNumber : Nat
  lineText : String
  repository : String
  matchInfo : MatchInfo
  deriving DecidableEq, Repr

/-- compilePatterns (src/main.go:92-114): per query, in input order, the
compiled pattern and the original pattern string; plus the union of all
extension lists.  The Go `map[string]bool` with value `true` for every
inserted key is modelled by list membership in the concatenation. -/
def compilePatterns (queries : List Query) :
    List (List Tok) × List String × List String :=
  (queries.map fun q => compileQuery q.pattern.data,
   queries.map fun q => q.pattern,
   queries.flatMap fun q => q.extensions)

/-- The line loop of scanFile (src/main.go:126-145): 1-based line numbers,
every compiled pattern applied to every line in input order, one
`SearchResult` sent per produced `MatchInfo`. -/
def scanLines (filePath : String) (patterns : List (List Tok)) (origs : List String)
    (repository : String) : List String → Nat → List SearchResult
  | [], _ => []
  | line :: rest, lineNum =>
    ((patterns.zip origs).flatMap fun po =>
      (findMatchPositions line po.1 po.2).map fun m =>
        { filePath := filePath, lineNumber := lineNum, lineText := line,
          repository := repository, matchInfo := m })
    ++ scanLines filePath patterns origs repository rest (lineNum + 1)

/-- scanFile (src/main.go:118-146): `content` is `none` when `os.Open`
fails, in which case the function returns with no result and no error;
otherwise `content` is the list of lines the buffered scanner yields.
(The 10MB line cap is not modelled: an over-long line merely truncates
`content`, and no claim depends on it.)  The results are listed in send
order; delivery order through the channel is handled by `IsRunOutcome`. -/
def scanFile (filePath : String) (patterns : List (List Tok)) (origs : List String)
    (repository : String) (content : Option (List String)) : List SearchResult :=
  match content with
  | none => []
  | some lines => scanLines filePath patterns origs repository lines 1

/-- The extension-extraction loop of Go's `filepath.Ext`, run on the
reversed path: walk from the last character towards the front, stop at a
path separator, return from the last dot (inclusive) when one is found.
`acc` holds the characters already passed, in forward order. -/
def extRev : List Char → List Char → Option (List Char)
  | [], _ => none
  | c :: rest, acc =>
    if c = '/' then none
    else if c = '.' then some ('.' :: acc)
    else extRev rest (c :: acc)

/-- filepath.Ext: the suffix of the final path element beginning at its
final dot, or the empty string when the final element has no dot. -/
def fileExt (path : String) : String :=
  match extRev path.data.reverse [] with
  | some l => ⟨l⟩
  | none => ""

/-- One entry of the `filepath.Walk` traversal of a repository, in walk
order.  `walkErr` is true when `Walk` passes a non-nil error for the entry
(the callback then skips it); `content` models `os.Open` plus line
splitting for files, `none` when the open fails. -/
structure FSEntry where
  path : String
  isDir : Bool
  walkErr : Bool
  content : Option (List String)
  deriving DecidableEq, Repr

/-- walkRepository (src/main.go:150-173): for every walked entry, skip it
on a walk error, and scan it exactly when it is not a directory and its
extension is in the extension set.  The per-file goroutines' emissions are
concatenated in walk order; observed interleavings are permutations,
see `IsRunOutcome`. -/
def walkRepository (entries : List FSEntry) (patterns : List (List Tok))
    (origs : List String) (extensions : List String) (repository : String) :
    List SearchResult :=
  entries.flatMap fun e =>
    if e.walkErr then []
    else if !e.isDir && extensions.contains (fileExt e.path) then
      scanFile e.path patterns origs repository e.content
    else []

/-- One entry of the `repos` directory as returned by `os.ReadDir`:
non-directories are skipped by main, directories are repositories whose
walk yields the given entries. -/
structure RepoEntry where
  name : String
  isDir : Bool
  entries : List FSEntry
  deriving DecidableEq, Repr

/-- The scanning portion of main (src/main.go:247-275): compile the
queries, walk every repository directory, collect every emitted result.
The list is the canonical emission order (repositories in `ReadDir` order,
entries in walk order). -/
def runScan (repos : List RepoEntry) (queries : List Query) : List SearchResult :=
  let c := compilePatterns queries
  repos.flatMap fun r =>
    if r.isDir then walkRepository r.entries c.1 c.2.1 c.2.2 r.name else []

/-- A possible observed result collection of one run: the channel fan-in
delivers every emitted result exactly once (the WaitGroup closes the
channel only after all producers finish, and the single consumer drains it
to closure), in some interleaving-dependent order.  So an outcome is any
permutation of the canonical emission list. -/
def IsRunOutcome (repos : List RepoEntry) (queries : List Query)
    (out : List SearchResult) : Prop :=
  out.Perm (runScan repos queries)

/-- Reference definition for the literal-pattern claim, following the
spec's words: scan the line left to right; where the pattern
`a :: p` occurs, record the span and restart the search at its end index;
otherwise advance one position.  Fuelled to stay structurally recursive
(each step consumes at least one character, so fuel `length + 1` in
`litOccurrences` is exact). -/
def litOccAux : Nat → Char → List Char → List Char → Nat → List (Nat × Nat)
  | 0, _, _, _, _ => []
  | _ + 1, _, _, [], _ => []
  | fuel + 1, a, p, b :: t, pos =>
    if (a :: p).isPrefixOf (b :: t) then
      (pos, pos + (p.length + 1)) ::
        litOccAux fuel a p (t.drop p.length) (pos + (p.length + 1))
    else
      litOccAux fuel a p t (pos + 1)

/-- The non-overlapping occurrences of the literal pattern `a :: p` in
`s`, left to right, restarting after each match. -/
def litOccurrences (a : Char) (p : List Char) (s : List Char) (pos : Nat) :
    List (Nat × Nat) :=
  litOccAux (s.length + 1) a p s pos

/-- The characters `regexp.QuoteMeta` escapes. -/
def specialChars : List Char :=
  ['\\', '.', '+', '*', '?', '(', ')', '|', '[', ']', '{', '}', '^', '$']

/-- Whether `regexp.QuoteMeta` escapes this character. -/
def isSpecial (c : Char) : Bool := specialChars.contains c

/-- regexp.QuoteMeta: prefix every metacharacter with a backslash. -/
def quoteMeta : List Char → List Char
  | [] => []
  | c :: rest => (if isSpecial c then ['\\', c] else [c]) ++ quoteMeta rest

/-- ReplaceAllString for a two-character literal pattern `[a, b]`: replace
the leftmost non-overlapping occurrences, resuming after each match. -/
def replacePair (a b : Char) (repl : List Char) : List Char → List Char
  | [] => []
  | [c] => [c]
  | c :: d :: rest =>
    if c = a ∧ d = b then repl ++ replacePair a b repl rest
    else c :: replacePair a b repl (d :: rest)

/-- The string-level wildcard translation of compilePatterns
(src/main.go:99-101): QuoteMeta, then every escaped star becomes `.` `*`,
then every escaped question mark becomes `.`. -/
def goTranslate (p : List Char) : List Char :=
  replacePair '\\' '?' ['.'] (replacePair '\\' '*' ['.', '*'] (quoteMeta p))

/-- Go's regexp parser restricted to the sub-language that the wildcard
translation can emit: escaped metacharacters (literals), `.`, `.` `*`, and
plain non-special characters.  Outside that sub-language it answers `none`
where Go's parser reports an error (trailing backslash, a repetition
operator with no operand, and, conservatively, operators the translation
never produces). -/
def parseRx : List Char → Option (List Tok)
  | [] => some []
  | [c] =>
    if c = '.' then some [Tok.dot]
    else if isSpecial c then none
    else some [Tok.lit c]
  | c :: d :: rest =>
    if c = '\\' then
      if isSpecial d then (parseRx rest).map (Tok.lit d :: ·) else none
    else if c = '.' then
      if d = '*' then (parseRx rest).map (Tok.star :: ·)
      else (parseRx (d :: rest)).map (Tok.dot :: ·)
    else if isSpecial c then none
    else (parseRx (d :: rest)).map (Tok.lit c :: ·)

/-- The image of one pattern character after QuoteMeta and the star
replacement: a star has become `.` `*`, every other character is still
its quoted unit. -/
def sunit (c : Char) : List Char :=
  if c = '*' then ['.', '*'] else if isSpecial c then ['\\', c] else [c]

/-- The image of one pattern character after QuoteMeta and both wildcard
replacements. -/
def qunit (c : Char) : List Char :=
  if c = '*' then ['.', '*']
  else if c = '?' then ['.']
  else if isSpecial c then ['\\', c] else [c]

theorem mem_suffixesShortFirst {s2 s : List Char} :
    s2 ∈ suffixesShortFirst s ↔ s2 <:+ s := by
  induction s with
  | nil => simp [suffixesShortFirst, List.suffix_nil]
  | cons a rest ih =>
    simp [suffixesShortFirst, List.mem_append, ih, List.suffix_cons_iff]
    tauto

theorem matchFrom_suffix :
    ∀ (ts : List Tok) (s rem : List Char), matchFrom ts s = some rem → rem <:+ s := by
  intro ts
  induction ts with
  | nil =>
    intro s rem h
    simp [matchFrom] at h
    exact h ▸ List.suffix_refl s
  | cons t ts ih =>
    intro s rem h
    cases t with
    | lit c =>
      cases s with
      | nil => simp [matchFrom] at h
      | cons a s2 =>
        simp [matchFrom] at h
        rcases h with ⟨-, h⟩
        exact (ih s2 rem h).trans (List.suffix_cons a s2)
    | dot =>
      cases s with
      | nil => simp [matchFrom] at h
      | cons a s2 =>
        simp [matchFrom] at h
        exact (ih s2 rem h).trans (List.suffix_cons a s2)
    | star =>
      simp only [matchFrom] at h
      obtain ⟨s2, hmem, hf⟩ := List.exists_of_findSome?_eq_some h
      exact (ih s2 rem hf).trans (mem_suffixesShortFirst.mp hmem)

theorem matchFrom_length_le {ts : List Tok} {s rem : List Char}
    (h : matchFrom ts s = some rem) : rem.length ≤ s.length :=
  (matchFrom_suffix ts s rem h).length_le

theorem firstMatchAux_bounds {ts : List Tok} :
    ∀ (s : List Char) (pos i e : Nat), firstMatchAux ts s pos = some (i, e) →
      pos ≤ i ∧ i ≤ e ∧ e ≤ pos + s.length := by
  intro s
  induction s with
  | nil =>
    intro pos i e h
    simp only [firstMatchAux] at h
    cases hm : matchFrom ts [] with
    | none => rw [hm] at h; simp at h
    | some rem =>
      rw [hm] at h
      simp at h
      omega
  | cons b t ih =>
    intro pos i e h
    simp only [firstMatchAux] at h
    cases hm : matchFrom ts (b :: t) with
    | none =>
      rw [hm] at h
      have := ih (pos + 1) i e h
      simp only [List.length_cons]
      omega
    | some rem =>
      rw [hm] at h
      simp at h
      have hr := matchFrom_length_le hm
      simp only [List.length_cons] at hr ⊢
      omega

theorem findAllLoopF_mem {ts : List Tok} {line : List Char} :
    ∀ (fuel pos : Nat) (prev : Option Nat) (i e : Nat),
      (i, e) ∈ findAllLoopF fuel ts line pos prev → i ≤ e ∧ e ≤ line.length := by
  intro fuel
  induction fuel with
  | zero => intro pos prev i e h; simp [findAllLoopF] at h
  | succ fuel ih =>
    intro pos prev i e h
    simp only [findAllLoopF] at h
    split at h
    · simp at h
    · rename_i hpos
      split at h
      · simp at h
      · rename_i i1 e1 heq
        have hb := firstMatchAux_bounds (line.drop pos) pos i1 e1 heq
        rw [List.length_drop] at hb
        split at h
        · rw [List.mem_append] at h
          rcases h with h | h
          · split at h <;> simp at h
            obtain ⟨rfl, rfl⟩ := h
            omega
          · exact ih (pos + 1) (some e1) i e h
        · rcases List.mem_cons.mp h with h | h
          · simp at h
            obtain ⟨rfl, rfl⟩ := h
            omega
          · exact ih e1 (some e1) i e h

theorem findMatchPositions_pattern {line : String} {ts : List Tok} {orig : String}
    {m : MatchInfo} (h : m ∈ findMatchPositions line ts orig) : m.pattern = orig := by
  unfold findMatchPositions at h
  rw [List.mem_map] at h
  obtain ⟨a, -, rfl⟩ := h
  rfl

theorem findMatchPositions_bounds {line : String} {ts : List Tok} {orig : String}
    {m : MatchInfo} (h : m ∈ findMatchPositions line ts orig) :
    m.startIndex ≤ m.endIndex ∧ m.endIndex ≤ line.length := by
  unfold findMatchPositions findAll at h
  rw [List.mem_map] at h
  obtain ⟨⟨a, b⟩, hmem, rfl⟩ := h
  have := findAllLoopF_mem (line.data.length + 1) 0 none a b hmem
  exact this

theorem scanLines_mem {fp : String} {pats : List (List Tok)} {origs : List String}
    {repo : String} :
    ∀ (lines : List String) (n : Nat) (r : SearchResult),
      r ∈ scanLines fp pats origs repo lines n →
      ∃ po ∈ pats.zip origs,
        r.matchInfo ∈ findMatchPositions r.lineText po.1 po.2 ∧
        r.filePath = fp ∧ r.repository = repo ∧
        n ≤ r.lineNumber ∧ r.lineNumber < n + lines.length ∧
        lines[r.lineNumber - n]? = some r.lineText := by
  intro lines
  induction lines with
  | nil => intro n r h; simp [scanLines] at h
  | cons line rest ih =>
    intro n r h
    simp only [scanLines, List.mem_append] at h
    rcases h with h | h
    · rw [List.mem_flatMap] at h
      obtain ⟨po, hpo, h⟩ := h
      rw [List.mem_map] at h
      obtain ⟨m, hm, rfl⟩ := h
      exact ⟨po, hpo, hm, rfl, rfl, Nat.le_refl n, by simp, by simp⟩
    · obtain ⟨po, hpo, hm, h1, h2, h3, h4, h5⟩ := ih (n + 1) r h
      refine ⟨po, hpo, hm, h1, h2, by omega, by simp; omega, ?_⟩
      have hk : r.lineNumber - n = (r.lineNumber - (n + 1)) + 1 := by omega
      rw [hk, List.getElem?_cons_succ]
      exact h5

theorem scanFile_mem {fp : String} {pats : List (List Tok)} {origs : List String}
    {repo : String} {content : Option (List String)} {r : SearchResult}
    (h : r ∈ scanFile fp pats origs repo content) :
    ∃ lines, content = some lines ∧
      ∃ po ∈ pats.zip origs,
        r.matchInfo ∈ findMatchPositions r.lineText po.1 po.2 ∧
        r.filePath = fp ∧ r.repository = repo ∧
        1 ≤ r.lineNumber ∧ r.lineNumber ≤ lines.length ∧
        lines[r.lineNumber - 1]? = some r.lineText := by
  match content with
  | none => simp [scanFile] at h
  | some lines =>
    obtain ⟨po, hpo, hm, h1, h2, h3, h4, h5⟩ := scanLines_mem lines 1 r h
    exact ⟨lines, rfl, po, hpo, hm, h1, h2, h3, by omega, h5⟩

/-- Claim C1, amended.  Every `MatchInfo` produced by `findMatchPositions`,
and hence every `SearchResult` emitted by `scanFile`, satisfies
`0 ≤ startIndex ≤ endIndex ≤ length of the line text`.  The strict
inequality of the original claim fails exactly on zero-width matches,
which patterns consisting only of `*` wildcards can produce (see the
counterexample). -/
theorem spans_within_line :
    (∀ (line : String) (ts : List Tok) (orig : String),
      ∀ m ∈ findMatchPositions line ts orig,
        m.startIndex ≤ m.endIndex ∧ m.endIndex ≤ line.length) ∧
    (∀ (fp : String) (pats : List (List Tok)) (origs : List String) (repo : String)
      (content : Option (List String)),
      ∀ r ∈ scanFile fp pats origs repo content,
        r.matchInfo.startIndex ≤ r.matchInfo.endIndex ∧
        r.matchInfo.endIndex ≤ r.lineText.length) := by
  constructor
  · intro line ts orig m hm
    exact findMatchPositions_bounds hm
  · intro fp pats origs repo content r hr
    obtain ⟨lines, -, po, -, hm, -⟩ := scanFile_mem hr
    exact findMatchPositions_bounds hm

/-- Witness for C1's amended theorem at a concrete input. -/
theorem spans_within_line_witness :
    (⟨"ab", 0, 2⟩ : MatchInfo) ∈ findMatchPositions "ababab" (compileQuery "ab".data) "ab" ∧
    ((⟨"ab", 0, 2⟩ : MatchInfo).startIndex ≤ (⟨"ab", 0, 2⟩ : MatchInfo).endIndex ∧
      (⟨"ab", 0, 2⟩ : MatchInfo).endIndex ≤ ("ababab" : String).length) :=
  ⟨by decide,
   spans_within_line.1 "ababab" (compileQuery "ab".data) "ab" ⟨"ab", 0, 2⟩ (by decide)⟩

/-- Counterexample to C1 as stated: the all-wildcard pattern `*` on the
empty line produces the zero-width span `(0, 0)`, so
`startIndex < endIndex` fails. -/
theorem spans_strict_counterexample :
    (⟨"*", 0, 0⟩ : MatchInfo) ∈ findMatchPositions "" (compileQuery "*".data) "*" ∧
    ¬ ((⟨"*", 0, 0⟩ : MatchInfo).startIndex < (⟨"*", 0, 0⟩ : MatchInfo).endIndex) := by
  decide

theorem compileQuery_lit {p : List Char} (h1 : '*' ∉ p) (h2 : '?' ∉ p) :
    compileQuery p = p.map Tok.lit := by
  unfold compileQuery
  apply List.map_congr_left
  intro c hc
  have g1 : ¬ c = '*' := fun h => h1 (h ▸ hc)
  have g2 : ¬ c = '?' := fun h => h2 (h ▸ hc)
  simp [g1, g2]

theorem isPrefixOf_length :
    ∀ (p s : List Char), p.isPrefixOf s = true → p.length ≤ s.length := by
  intro p
  induction p with
  | nil => intro s _; simp
  | cons c p ih =>
    intro s h
    cases s with
    | nil => simp [List.isPrefixOf] at h
    | cons b t =>
      simp only [List.isPrefixOf, Bool.and_eq_true] at h
      have := ih t h.2
      simp only [List.length_cons]
      omega

theorem matchFrom_lit :
    ∀ (p s : List Char), matchFrom (p.map Tok.lit) s =
      if p.isPrefixOf s then some (s.drop p.length) else none := by
  intro p
  induction p with
  | nil => intro s; simp [matchFrom, List.isPrefixOf]
  | cons c p ih =>
    intro s
    cases s with
    | nil => simp [matchFrom, List.isPrefixOf]
    | cons b t =>
      simp only [List.map_cons, matchFrom, List.isPrefixOf, List.length_cons,
        List.drop_succ_cons]
      by_cases hbc : b = c
      · subst hbc
        simp [ih t]
      · have : (c == b) = false := by
          simp only [beq_eq_false_iff_ne, ne_eq]
          exact fun h => hbc h.symm
        simp [hbc, this]

theorem firstMatchAux_lit_cons {c : Char} {p : List Char} :
    ∀ (s : List Char) (pos : Nat),
      firstMatchAux ((c :: p).map Tok.lit) s pos =
        if (c :: p).isPrefixOf s then some (pos, pos + (p.length + 1))
        else
          match s with
          | [] => none
          | _ :: t => firstMatchAux ((c :: p).map Tok.lit) t (pos + 1) := by
  intro s pos
  cases s with
  | nil =>
    simp only [firstMatchAux]
    simp [List.isPrefixOf]
  | cons b t =>
    simp only [firstMatchAux]
    rw [matchFrom_lit]
    by_cases hp : (c :: p).isPrefixOf (b :: t)
    · have hl := isPrefixOf_length _ _ hp
      simp only [List.length_cons] at hl
      simp [hp, List.length_drop, List.length_cons]
      omega
    · simp [hp]

theorem firstMatchAux_lit_gap {c : Char} {p : List Char} :
    ∀ (s : List Char) (pos i e : Nat),
      firstMatchAux ((c :: p).map Tok.lit) s pos = some (i, e) →
      e = i + (p.length + 1) := by
  intro s
  induction s with
  | nil =>
    intro pos i e h
    rw [firstMatchAux_lit_cons] at h
    simp [List.isPrefixOf] at h
  | cons b t ih =>
    intro pos i e h
    rw [firstMatchAux_lit_cons] at h
    split at h
    · simp at h
      omega
    · exact ih (pos + 1) i e h

theorem litOccAux_congr {a : Char} {p : List Char} :
    ∀ (f1 : Nat) (f2 : Nat) (s : List Char) (pos : Nat),
      s.length < f1 → s.length < f2 →
      litOccAux f1 a p s pos = litOccAux f2 a p s pos := by
  intro f1
  induction f1 with
  | zero => intro f2 s pos h1 _; omega
  | succ f1 ih =>
    intro f2 s pos h1 h2
    match f2, s with
    | 0, _ => omega
    | f2 + 1, [] => simp [litOccAux]
    | f2 + 1, b :: t =>
      simp only [litOccAux]
      simp only [List.length_cons] at h1 h2
      split
      · have hd : (t.drop p.length).length ≤ t.length := by
          rw [List.length_drop]; omega
        rw [ih f2 (t.drop p.length) _ (by omega) (by omega)]
      · rw [ih f2 t _ (by omega) (by omega)]

theorem findAllLoopF_lit_nil {c : Char} {p : List Char} {line : List Char}
    {pos fuel : Nat} {prev : Option Nat} (hs : line.drop pos = []) :
    findAllLoopF fuel ((c :: p).map Tok.lit) line pos prev = [] := by
  cases fuel with
  | zero => simp [findAllLoopF]
  | succ f =>
    simp only [findAllLoopF]
    by_cases hlt : line.length < pos
    · simp [hlt]
    · rw [if_neg hlt, hs, firstMatchAux_lit_cons]
      simp [List.isPrefixOf]

theorem findAllLoopF_lit_step {c : Char} {p : List Char} {line : List Char}
    {b : Char} {t : List Char} {pos fuel : Nat} {prev : Option Nat}
    (hs : line.drop pos = b :: t)
    (hp : (c :: p).isPrefixOf (b :: t) = false) :
    findAllLoopF (fuel + 1) ((c :: p).map Tok.lit) line pos prev =
      findAllLoopF (fuel + 1) ((c :: p).map Tok.lit) line (pos + 1) prev := by
  have hlt : pos < line.length := by
    by_contra hge
    rw [List.drop_eq_nil_of_le (by omega)] at hs
    exact absurd hs (by simp)
  have ht : line.drop (pos + 1) = t := by
    have h2 := List.tail_drop line pos
    rw [hs] at h2
    exact h2.symm
  simp only [findAllLoopF]
  rw [if_neg (by omega), if_neg (by omega), hs, firstMatchAux_lit_cons, hp]
  simp only [Bool.false_eq_true, if_false, ht]
  cases hm : firstMatchAux ((c :: p).map Tok.lit) t (pos + 1) with
  | none => rfl
  | some pr =>
    obtain ⟨i, e⟩ := pr
    have hg := firstMatchAux_lit_gap t (pos + 1) i e hm
    have hne : ¬ (e = i) := by omega
    simp [hne]

theorem findAllLoopF_lit {c : Char} {p : List Char} {line : List Char} :
    ∀ (n : Nat) (s : List Char) (pos fuel : Nat) (prev : Option Nat),
      line.drop pos = s → s.length ≤ n → line.length + 1 ≤ fuel + pos →
      findAllLoopF fuel ((c :: p).map Tok.lit) line pos prev =
        litOccAux (s.length + 1) c p s pos := by
  intro n
  induction n with
  | zero =>
    intro s pos fuel prev hs hlen hfuel
    have hs0 : s = [] := List.length_eq_zero.mp (by omega)
    subst hs0
    rw [findAllLoopF_lit_nil hs]
    simp [litOccAux]
  | succ n ih =>
    intro s pos fuel prev hs hlen hfuel
    cases s with
    | nil =>
      rw [findAllLoopF_lit_nil hs]
      simp [litOccAux]
    | cons b t =>
      have hlt : pos < line.length := by
        by_contra hge
        rw [List.drop_eq_nil_of_le (by omega)] at hs
        exact absurd hs (by simp)
      cases fuel with
      | zero => omega
      | succ f =>
        by_cases hp : (c :: p).isPrefixOf (b :: t)
        · simp only [findAllLoopF]
          rw [if_neg (by omega), hs, firstMatchAux_lit_cons, if_pos hp]
          have hne : ¬ (pos + (p.length + 1) = pos) := by omega
          simp only [hne, if_false]
          have hd2 : line.drop (pos + (p.length + 1)) = t.drop p.length := by
            calc line.drop (pos + (p.length + 1))
                = (line.drop pos).drop (p.length + 1) :=
                    (List.drop_drop (p.length + 1) pos line).symm
              _ = (b :: t).drop (p.length + 1) := by rw [hs]
              _ = t.drop p.length := by rw [List.drop_succ_cons]
          have hih := ih (t.drop p.length) (pos + (p.length + 1)) f
            (some (pos + (p.length + 1))) hd2
            (by rw [List.length_drop]; simp only [List.length_cons] at hlen; omega)
            (by omega)
          rw [hih]
          simp only [litOccAux, List.length_cons, if_pos hp]
          rw [litOccAux_congr ((t.drop p.length).length + 1) (t.length + 1)
            (t.drop p.length) (pos + (p.length + 1)) (by omega)
            (by rw [List.length_drop]; omega)]
        · have hpf : (c :: p).isPrefixOf (b :: t) = false := Bool.eq_false_iff.mpr hp
          rw [findAllLoopF_lit_step hs hpf]
          have ht : line.drop (pos + 1) = t := by
            have h2 := List.tail_drop line pos
            rw [hs] at h2
            exact h2.symm
          have hih := ih t (pos + 1) (f + 1) prev ht
            (by simp only [List.length_cons] at hlen; omega) (by omega)
          rw [hih]
          simp only [litOccAux, List.length_cons, hpf]
          simp

/-- Claim C2: for a literal (wildcard-free, nonempty) pattern, the line
matcher returns exactly the non-overlapping occurrences of the pattern,
scanned left to right with the search restarting at each match end
(`litOccurrences` is that scan, written from the spec's words); in
particular pattern ab on line ababab yields the spans (0,2), (2,4), (4,6)
in that order.  The empty pattern is excluded: the spec's restart-at-end
scan does not terminate on it. -/
theorem literal_pattern_occurrences :
    (∀ (c : Char) (cs : List Char) (line : String),
      '*' ∉ c :: cs → '?' ∉ c :: cs →
      findMatchPositions line (compileQuery (c :: cs)) (String.mk (c :: cs)) =
        (litOccurrences c cs line.data 0).map
          (fun pr => ⟨String.mk (c :: cs), pr.1, pr.2⟩)) ∧
    findMatchPositions "ababab" (compileQuery "ab".data) "ab" =
      [⟨"ab", 0, 2⟩, ⟨"ab", 2, 4⟩, ⟨"ab", 4, 6⟩] := by
  constructor
  · intro c cs line h1 h2
    unfold findMatchPositions findAll litOccurrences
    rw [compileQuery_lit h1 h2]
    rw [findAllLoopF_lit line.data.length line.data 0 (line.data.length + 1) none
      (List.drop_zero line.data) (Nat.le_refl _) (by omega)]
  · decide

/-- Witness for C2 at pattern ab and line ababab. -/
theorem literal_pattern_occurrences_witness :
    '*' ∉ 'a' :: ['b'] ∧ '?' ∉ 'a' :: ['b'] ∧
    findMatchPositions "ababab" (compileQuery ('a' :: ['b'])) (String.mk ('a' :: ['b'])) =
      (litOccurrences 'a' ['b'] "ababab".data 0).map
        (fun pr => ⟨String.mk ('a' :: ['b']), pr.1, pr.2⟩) :=
  ⟨by decide, by decide,
    literal_pattern_occurrences.1 'a' ['b'] "ababab" (by decide) (by decide)⟩

/-- Claim C3: the wildcard translation sends star to an any-length run and
question mark to exactly one arbitrary character: a*b matches aXYZb with
one span covering the whole substring, a?b matches axb, and a?b does not
match axxb. -/
theorem wildcard_translation_behaviour :
    compileQuery "a*b".data = [Tok.lit 'a', Tok.star, Tok.lit 'b'] ∧
    compileQuery "a?b".data = [Tok.lit 'a', Tok.dot, Tok.lit 'b'] ∧
    findMatchPositions "aXYZb" (compileQuery "a*b".data) "a*b" = [⟨"a*b", 0, 5⟩] ∧
    findMatchPositions "axb" (compileQuery "a?b".data) "a?b" = [⟨"a?b", 0, 3⟩] ∧
    findMatchPositions "axxb" (compileQuery "a?b".data) "a?b" = [] := by
  refine ⟨by decide, by decide, by decide, by decide, by decide⟩

/-- Claim C4: scanFile numbers lines from 1 and carries the full line text
of the numbered line in every result; and the end-to-end scenario with
query TODO: over extensions [.go] on a file x.go with lines line1,
TODO: fix, line3 produces exactly one result, at line 2, spanning
offsets 0 to 5. -/
theorem scanFile_numbering_and_scenario :
    (∀ (fp : String) (pats : List (List Tok)) (origs : List String) (repo : String)
        (lines : List String) (r : SearchResult),
        r ∈ scanFile fp pats origs repo (some lines) →
        1 ≤ r.lineNumber ∧ r.lineNumber ≤ lines.length ∧
        lines[r.lineNumber - 1]? = some r.lineText) ∧
    runScan [⟨"repo1", true, [⟨"x.go", false, false,
        some ["line1", "TODO: fix", "line3"]⟩]⟩] [⟨"TODO:", [".go"]⟩] =
      [⟨"x.go", 2, "TODO: fix", "repo1", ⟨"TODO:", 0, 5⟩⟩] := by
  constructor
  · intro fp pats origs repo lines r h
    obtain ⟨lines2, heq, po, -, -, -, -, h3, h4, h5⟩ := scanFile_mem h
    obtain rfl : lines = lines2 := Option.some.inj heq
    exact ⟨h3, h4, h5⟩
  · decide

/-- Witness for C4's numbering part at the concrete scenario file. -/
theorem scanFile_numbering_and_scenario_witness :
    1 ≤ (⟨"x.go", 2, "TODO: fix", "repo1", ⟨"TODO:", 0, 5⟩⟩ : SearchResult).lineNumber ∧
    (⟨"x.go", 2, "TODO: fix", "repo1", ⟨"TODO:", 0, 5⟩⟩ : SearchResult).lineNumber ≤
      (["line1", "TODO: fix", "line3"] : List String).length ∧
    (["line1", "TODO: fix", "line3"] :
        List String)[(⟨"x.go", 2, "TODO: fix", "repo1",
          ⟨"TODO:", 0, 5⟩⟩ : SearchResult).lineNumber - 1]? =
      some (⟨"x.go", 2, "TODO: fix", "repo1",
        ⟨"TODO:", 0, 5⟩⟩ : SearchResult).lineText :=
  scanFile_numbering_and_scenario.1 "x.go" (compilePatterns [⟨"TODO:", [".go"]⟩]).1
    (compilePatterns [⟨"TODO:", [".go"]⟩]).2.1 "repo1"
    ["line1", "TODO: fix", "line3"]
    ⟨"x.go", 2, "TODO: fix", "repo1", ⟨"TODO:", 0, 5⟩⟩ (by decide)

/-- Claim C5: a file contributes results exactly when it is a
non-directory entry whose extension, compared case-sensitively, is in the
union of the queries' extension lists; in particular foo.TS is never
scanned against an extension set containing only .ts, whatever its
content. -/
theorem extension_filtering :
    (∀ (entries : List FSEntry) (pats : List (List Tok)) (origs : List String)
        (exts : List String) (repo : String) (r : SearchResult),
        r ∈ walkRepository entries pats origs exts repo →
        ∃ e ∈ entries, e.walkErr = false ∧ e.isDir = false ∧
          exts.contains (fileExt e.path) = true ∧
          r ∈ scanFile e.path pats origs repo e.content) ∧
    (∀ (entries : List FSEntry) (pats : List (List Tok)) (origs : List String)
        (exts : List String) (repo : String) (e : FSEntry) (r : SearchResult),
        e ∈ entries → e.walkErr = false → e.isDir = false →
        exts.contains (fileExt e.path) = true →
        r ∈ scanFile e.path pats origs repo e.content →
        r ∈ walkRepository entries pats origs exts repo) ∧
    walkRepository [⟨"foo.TS", false, false, some ["some .ts text"]⟩]
        (compilePatterns [⟨"ts", [".ts"]⟩]).1 (compilePatterns [⟨"ts", [".ts"]⟩]).2.1
        (compilePatterns [⟨"ts", [".ts"]⟩]).2.2 "r" = [] ∧
    fileExt "foo.TS" = ".TS" ∧ fileExt "foo.ts" = ".ts" := by
  refine ⟨?_, ?_, by decide, by decide, by decide⟩
  · intro entries pats origs exts repo r h
    unfold walkRepository at h
    rw [List.mem_flatMap] at h
    obtain ⟨e, he, hr⟩ := h
    split at hr
    · simp at hr
    · rename_i hwerr
      split at hr
      · rename_i hcond
        rw [Bool.and_eq_true, Bool.not_eq_true' ] at hcond
        exact ⟨e, he, Bool.eq_false_iff.mpr hwerr, hcond.1, hcond.2, hr⟩
      · simp at hr
  · intro entries pats origs exts repo e r he hwerr hdir hext hr
    unfold walkRepository
    rw [List.mem_flatMap]
    refine ⟨e, he, ?_⟩
    rw [hwerr, hdir, hext]
    simpa using hr

/-- Witness for C5 at a concrete scanned file. -/
theorem extension_filtering_witness :
    (⟨"a.go", false, false, some ["TODO: x"]⟩ : FSEntry) ∈
      [(⟨"a.go", false, false, some ["TODO: x"]⟩ : FSEntry)] ∧
    (⟨"x.go", 2, "t", "r", ⟨"p", 0, 1⟩⟩ : SearchResult).filePath = "x.go" ∧
    (⟨"a.go", 1, "TODO: x", "r", ⟨"TODO:", 0, 5⟩⟩ : SearchResult) ∈
      walkRepository [⟨"a.go", false, false, some ["TODO: x"]⟩]
        (compilePatterns [⟨"TODO:", [".go"]⟩]).1
        (compilePatterns [⟨"TODO:", [".go"]⟩]).2.1
        (compilePatterns [⟨"TODO:", [".go"]⟩]).2.2 "r" :=
  ⟨by decide, by decide,
    extension_filtering.2.1 [⟨"a.go", false, false, some ["TODO: x"]⟩]
      (compilePatterns [⟨"TODO:", [".go"]⟩]).1
      (compilePatterns [⟨"TODO:", [".go"]⟩]).2.1
      (compilePatterns [⟨"TODO:", [".go"]⟩]).2.2 "r"
      ⟨"a.go", false, false, some ["TODO: x"]⟩
      ⟨"a.go", 1, "TODO: x", "r", ⟨"TODO:", 0, 5⟩⟩
      (by decide) (by decide) (by decide) (by decide) (by decide)⟩

/-- Claim C6: compilePatterns keeps length and order (the i-th compiled
pattern and the i-th original-pattern string come from the i-th query),
and every emitted MatchInfo carries the original pattern string it was
invoked with. -/
theorem pattern_order_and_labels :
    (∀ (queries : List Query) (i : Nat),
      (compilePatterns queries).1.length = queries.length ∧
      (compilePatterns queries).2.1.length = queries.length ∧
      (compilePatterns queries).1[i]? =
        (queries[i]?).map (fun q => compileQuery q.pattern.data) ∧
      (compilePatterns queries).2.1[i]? =
        (queries[i]?).map (fun q => q.pattern)) ∧
    (∀ (line : String) (ts : List Tok) (orig : String) (m : MatchInfo),
      m ∈ findMatchPositions line ts orig → m.pattern = orig) := by
  constructor
  · intro queries i
    refine ⟨by simp [compilePatterns], by simp [compilePatterns], ?_, ?_⟩
    · simp [compilePatterns, List.getElem?_map]
    · simp [compilePatterns, List.getElem?_map]
  · intro line ts orig m h
    exact findMatchPositions_pattern h

/-- Witness for C6's labelling part at a concrete match. -/
theorem pattern_order_and_labels_witness :
    (⟨"ab", 0, 2⟩ : MatchInfo) ∈
      findMatchPositions "ababab" (compileQuery "ab".data) "ab" ∧
    (⟨"ab", 0, 2⟩ : MatchInfo).pattern = "ab" :=
  ⟨by decide,
    pattern_order_and_labels.2 "ababab" (compileQuery "ab".data) "ab"
      ⟨"ab", 0, 2⟩ (by decide)⟩

/-- Claim C7: a file whose open fails contributes no result and no error,
and its failure leaves the results of every other walked entry unchanged
(the walk of the surrounding entries decomposes around it). -/
theorem unreadable_file_skipped :
    (∀ (fp : String) (pats : List (List Tok)) (origs : List String) (repo : String),
      scanFile fp pats origs repo none = []) ∧
    (∀ (pre post : List FSEntry) (e : FSEntry) (pats : List (List Tok))
        (origs : List String) (exts : List String) (repo : String),
        e.content = none →
        walkRepository (pre ++ e :: post) pats origs exts repo =
          walkRepository pre pats origs exts repo ++
            walkRepository post pats origs exts repo) := by
  constructor
  · intro fp pats origs repo
    rfl
  · intro pre post e pats origs exts repo hc
    unfold walkRepository
    rw [List.flatMap_append, List.flatMap_cons]
    have he : (if e.walkErr then []
        else if !e.isDir && exts.contains (fileExt e.path) then
          scanFile e.path pats origs repo e.content
        else []) = ([] : List SearchResult) := by
      rw [hc]
      split
      · rfl
      · split
        · rfl
        · rfl
    rw [he, List.nil_append]

/-- Witness for C7's decomposition at a concrete unreadable file. -/
theorem unreadable_file_skipped_witness :
    walkRepository
        ([⟨"a.go", false, false, some ["TODO: x"]⟩] ++
          (⟨"b.go", false, false, none⟩ : FSEntry) ::
            [⟨"c.go", false, false, some ["TODO: y"]⟩])
        (compilePatterns [⟨"TODO:", [".go"]⟩]).1
        (compilePatterns [⟨"TODO:", [".go"]⟩]).2.1
        (compilePatterns [⟨"TODO:", [".go"]⟩]).2.2 "r" =
      walkRepository [⟨"a.go", false, false, some ["TODO: x"]⟩]
        (compilePatterns [⟨"TODO:", [".go"]⟩]).1
        (compilePatterns [⟨"TODO:", [".go"]⟩]).2.1
        (compilePatterns [⟨"TODO:", [".go"]⟩]).2.2 "r" ++
      walkRepository [⟨"c.go", false, false, some ["TODO: y"]⟩]
        (compilePatterns [⟨"TODO:", [".go"]⟩]).1
        (compilePatterns [⟨"TODO:", [".go"]⟩]).2.1
        (compilePatterns [⟨"TODO:", [".go"]⟩]).2.2 "r" :=
  unreadable_file_skipped.2 [⟨"a.go", false, false, some ["TODO: x"]⟩]
    [⟨"c.go", false, false, some ["TODO: y"]⟩] ⟨"b.go", false, false, none⟩
    (compilePatterns [⟨"TODO:", [".go"]⟩]).1
    (compilePatterns [⟨"TODO:", [".go"]⟩]).2.1
    (compilePatterns [⟨"TODO:", [".go"]⟩]).2.2 "r" rfl

/-- Claim C8: a run's observable outcome is any interleaving-dependent
permutation of the canonical emission list, so two runs over the same
queries and file set yield the same multiset of results even though their
orders may differ. -/
theorem scan_outcome_multiset_deterministic :
    ∀ (repos : List RepoEntry) (queries : List Query)
      (out1 out2 : List SearchResult),
      IsRunOutcome repos queries out1 → IsRunOutcome repos queries out2 →
      (out1 : Multiset SearchResult) = (out2 : Multiset SearchResult) := by
  intro repos queries out1 out2 h1 h2
  unfold IsRunOutcome at h1 h2
  exact Multiset.coe_eq_coe.mpr (h1.trans h2.symm)

/-- Witness for C8 with the canonical outcome taken twice. -/
theorem scan_outcome_multiset_deterministic_witness :
    ((runScan [⟨"repo1", true, [⟨"x.go", false, false,
        some ["line1", "TODO: fix", "line3"]⟩]⟩] [⟨"TODO:", [".go"]⟩]) :
      Multiset SearchResult) =
    ((runScan [⟨"repo1", true, [⟨"x.go", false, false,
        some ["line1", "TODO: fix", "line3"]⟩]⟩] [⟨"TODO:", [".go"]⟩]) :
      Multiset SearchResult) :=
  scan_outcome_multiset_deterministic _ _ _ _ (List.Perm.refl _) (List.Perm.refl _)

theorem quoteMeta_cons (c : Char) (r : List Char) :
    quoteMeta (c :: r) = (if isSpecial c then ['\\', c] else [c]) ++ quoteMeta r := rfl

theorem quoteMeta_head {r : List Char} {x : Char}
    (h : (quoteMeta r).head? = some x) : x = '\\' ∨ isSpecial x = false := by
  cases r with
  | nil => simp [quoteMeta] at h
  | cons c r2 =>
    rw [quoteMeta_cons] at h
    by_cases hc : isSpecial c
    · rw [if_pos hc] at h
      simp at h
      exact Or.inl h.symm
    · rw [if_neg hc] at h
      simp at h
      subst h
      exact Or.inr (Bool.eq_false_iff.mpr hc)

theorem replaceStar_unit (c : Char) (Q : List Char)
    (hq : ∀ x, Q.head? = some x → x ≠ '*') :
    replacePair '\\' '*' ['.', '*'] ((if isSpecial c then ['\\', c] else [c]) ++ Q) =
      sunit c ++ replacePair '\\' '*' ['.', '*'] Q := by
  by_cases hstar : c = '*'
  · subst hstar
    rw [if_pos (by decide)]
    cases Q with
    | nil => simp [replacePair, sunit]
    | cons q Q2 => simp [replacePair, sunit]
  · by_cases hspec : isSpecial c
    · rw [if_pos hspec]
      cases Q with
      | nil =>
        simp only [List.cons_append, List.nil_append]
        rw [show replacePair '\\' '*' ['.', '*'] ['\\', c] =
          if '\\' = '\\' ∧ c = '*' then ['.', '*'] ++ replacePair '\\' '*' ['.', '*'] []
          else '\\' :: replacePair '\\' '*' ['.', '*'] [c] from rfl]
        rw [if_neg (by simp [hstar])]
        simp [replacePair, sunit, hspec, hstar]
      | cons q Q2 =>
        have hq2 : q ≠ '*' := hq q rfl
        simp only [List.cons_append, List.nil_append]
        rw [show replacePair '\\' '*' ['.', '*'] ('\\' :: c :: q :: Q2) =
          if '\\' = '\\' ∧ c = '*' then
            ['.', '*'] ++ replacePair '\\' '*' ['.', '*'] (q :: Q2)
          else '\\' :: replacePair '\\' '*' ['.', '*'] (c :: q :: Q2) from rfl]
        rw [if_neg (by simp [hstar])]
        rw [show replacePair '\\' '*' ['.', '*'] (c :: q :: Q2) =
          if c = '\\' ∧ q = '*' then
            ['.', '*'] ++ replacePair '\\' '*' ['.', '*'] Q2
          else c :: replacePair '\\' '*' ['.', '*'] (q :: Q2) from rfl]
        rw [if_neg (by simp [hq2])]
        simp [sunit, hspec, hstar]
    · rw [if_neg hspec]
      have hcb : c ≠ '\\' := by
        intro h
        subst h
        exact hspec (by decide)
      cases Q with
      | nil => simp [replacePair, sunit, hstar, hspec]
      | cons q Q2 =>
        simp only [List.cons_append, List.nil_append]
        rw [show replacePair '\\' '*' ['.', '*'] (c :: q :: Q2) =
          if c = '\\' ∧ q = '*' then
            ['.', '*'] ++ replacePair '\\' '*' ['.', '*'] Q2
          else c :: replacePair '\\' '*' ['.', '*'] (q :: Q2) from rfl]
        rw [if_neg (by simp [hcb])]
        simp [sunit, hstar, hspec]

theorem replaceStar_head {r : List Char} {x : Char}
    (h : (replacePair '\\' '*' ['.', '*'] (quoteMeta r)).head? = some x) :
    x ≠ '?' := by
  cases r with
  | nil => simp [quoteMeta, replacePair] at h
  | cons c r2 =>
    rw [quoteMeta_cons,
      replaceStar_unit c (quoteMeta r2) (fun y hy => by
        rcases quoteMeta_head hy with h1 | h1
        · subst h1; decide
        · intro h2; subst h2; exact absurd h1 (by decide))] at h
    by_cases hstar : c = '*'
    · subst hstar
      simp [sunit] at h
      subst h; decide
    · by_cases hspec : isSpecial c
      · simp [sunit, hstar, hspec] at h
        subst h; decide
      · simp [sunit, hstar, hspec] at h
        subst h
        intro h2
        subst h2
        exact hspec (by decide)

theorem replaceQmark_unit (c : Char) (W : List Char)
    (hw : ∀ x, W.head? = some x → x ≠ '?') :
    replacePair '\\' '?' ['.'] (sunit c ++ W) =
      qunit c ++ replacePair '\\' '?' ['.'] W := by
  by_cases hstar : c = '*'
  · subst hstar
    rw [show sunit '*' = ['.', '*'] from rfl, show qunit '*' = ['.', '*'] from rfl]
    cases W with
    | nil => simp [replacePair]
    | cons w W2 =>
      simp only [List.cons_append, List.nil_append]
      rw [show replacePair '\\' '?' ['.'] ('.' :: '*' :: w :: W2) =
        if ('.' : Char) = '\\' ∧ ('*' : Char) = '?' then
          ['.'] ++ replacePair '\\' '?' ['.'] (w :: W2)
        else '.' :: replacePair '\\' '?' ['.'] ('*' :: w :: W2) from rfl]
      rw [if_neg (by decide)]
      rw [show replacePair '\\' '?' ['.'] ('*' :: w :: W2) =
        if ('*' : Char) = '\\' ∧ w = '?' then
          ['.'] ++ replacePair '\\' '?' ['.'] W2
        else '*' :: replacePair '\\' '?' ['.'] (w :: W2) from rfl]
      rw [if_neg (by simp)]
  · by_cases hqm : c = '?'
    · subst hqm
      rw [show sunit '?' = ['\\', '?'] from rfl, show qunit '?' = ['.'] from rfl]
      cases W with
      | nil => simp [replacePair]
      | cons w W2 => simp [replacePair]
    · by_cases hspec : isSpecial c
      · rw [show sunit c = ['\\', c] by simp [sunit, hstar, hspec],
          show qunit c = ['\\', c] by simp [qunit, hstar, hqm, hspec]]
        cases W with
        | nil =>
          simp only [List.cons_append, List.nil_append]
          rw [show replacePair '\\' '?' ['.'] ['\\', c] =
            if ('\\' : Char) = '\\' ∧ c = '?' then ['.'] ++ replacePair '\\' '?' ['.'] []
            else '\\' :: replacePair '\\' '?' ['.'] [c] from rfl]
          rw [if_neg (by simp [hqm])]
          simp [replacePair]
        | cons w W2 =>
          have hw2 : w ≠ '?' := hw w rfl
          simp only [List.cons_append, List.nil_append]
          rw [show replacePair '\\' '?' ['.'] ('\\' :: c :: w :: W2) =
            if ('\\' : Char) = '\\' ∧ c = '?' then
              ['.'] ++ replacePair '\\' '?' ['.'] (w :: W2)
            else '\\' :: replacePair '\\' '?' ['.'] (c :: w :: W2) from rfl]
          rw [if_neg (by simp [hqm])]
          rw [show replacePair '\\' '?' ['.'] (c :: w :: W2) =
            if c = '\\' ∧ w = '?' then ['.'] ++ replacePair '\\' '?' ['.'] W2
            else c :: replacePair '\\' '?' ['.'] (w :: W2) from rfl]
          rw [if_neg (by simp [hw2])]
      · rw [show sunit c = [c] by simp [sunit, hstar, hspec],
          show qunit c = [c] by simp [qunit, hstar, hqm, hspec]]
        have hcb : c ≠ '\\' := by
          intro h
          subst h
          exact hspec (by decide)
        cases W with
        | nil => simp [replacePair]
        | cons w W2 =>
          simp only [List.cons_append, List.nil_append]
          rw [show replacePair '\\' '?' ['.'] (c :: w :: W2) =
            if c = '\\' ∧ w = '?' then ['.'] ++ replacePair '\\' '?' ['.'] W2
            else c :: replacePair '\\' '?' ['.'] (w :: W2) from rfl]
          rw [if_neg (by simp [hcb])]

theorem goTranslate_cons (c : Char) (r : List Char) :
    goTranslate (c :: r) = qunit c ++ goTranslate r := by
  unfold goTranslate
  rw [quoteMeta_cons,
    replaceStar_unit c (quoteMeta r) (fun y hy => by
      rcases quoteMeta_head hy with h1 | h1
      · subst h1; decide
      · intro h2; subst h2; exact absurd h1 (by decide)),
    replaceQmark_unit c _ (fun y hy => replaceStar_head hy)]

theorem goTranslate_head {r : List Char} {x : Char}
    (h : (goTranslate r).head? = some x) : x ≠ '*' := by
  cases r with
  | nil => simp [goTranslate, quoteMeta, replacePair] at h
  | cons c r2 =>
    rw [goTranslate_cons] at h
    by_cases hstar : c = '*'
    · subst hstar
      simp [qunit] at h
      subst h; decide
    · by_cases hqm : c = '?'
      · subst hqm
        simp [qunit] at h
        subst h; decide
      · by_cases hspec : isSpecial c
        · simp [qunit, hstar, hqm, hspec] at h
          subst h; decide
        · simp [qunit, hstar, hqm, hspec] at h
          subst h
          intro h2
          subst h2
          exact hspec (by decide)

theorem parseRx_qunit (c : Char) (V : List Char)
    (hv : ∀ x, V.head? = some x → x ≠ '*') :
    parseRx (qunit c ++ V) =
      (parseRx V).map (fun ts =>
        (if c = '*' then Tok.star else if c = '?' then Tok.dot else Tok.lit c) :: ts) := by
  by_cases hstar : c = '*'
  · subst hstar
    rw [show qunit '*' ++ V = '.' :: '*' :: V from rfl]
    simp [parseRx]
  · by_cases hqm : c = '?'
    · subst hqm
      rw [show qunit '?' ++ V = '.' :: V from rfl]
      cases V with
      | nil => simp [parseRx]
      | cons v V2 =>
        have hv2 : v ≠ '*' := hv v rfl
        simp [parseRx, hv2]
    · by_cases hspec : isSpecial c
      · rw [show qunit c ++ V = '\\' :: c :: V by
          simp [qunit, hstar, hqm, hspec]]
        simp [parseRx, hstar, hqm, hspec]
      · have hcb : c ≠ '\\' := by
          intro h; subst h; exact hspec (by decide)
        have hcd : c ≠ '.' := by
          intro h; subst h; exact hspec (by decide)
        rw [show qunit c ++ V = c :: V by simp [qunit, hstar, hqm, hspec]]
        cases V with
        | nil => simp [parseRx, hstar, hqm, hspec, hcb, hcd]
        | cons v V2 => simp [parseRx, hstar, hqm, hspec, hcb, hcd]

/-- Claim C10: pattern compilation is total.  For every query pattern, the
string produced by QuoteMeta followed by the star and question-mark
substitutions is accepted by the regexp parser (so MustCompile's panic
branch is unreachable), and it parses to exactly the per-character
wildcard translation `compileQuery`. -/
theorem wildcard_compilation_total :
    ∀ (p : List Char), parseRx (goTranslate p) = some (compileQuery p) := by
  intro p
  induction p with
  | nil => rfl
  | cons c r ih =>
    rw [goTranslate_cons, parseRx_qunit c _ (fun x hx => goTranslate_head hx), ih]
    rfl
